import Mathlib

/-!
Verification of moul/zapfilter (src/zapfilter.go).

The Go code is shallowly embedded: Go strings become `String`/`List Char`,
`zapcore.Level` becomes an enumeration, `FilterFunc` closures become a small
filter tree with an executable evaluator, and the per-matcher memoization map
becomes explicit state threaded through an evaluation function.  A Go runtime
panic (out-of-range string index, call of a nil function) is modelled as
`Option.none`.  `path.Match` from the Go standard library (the glob matcher
used by `ByNamespaces`) is translated function-by-function; its loops run on
explicit fuel bounded by the pattern length, since every iteration of each
loop in the Go source consumes at least one pattern byte.
-/

namespace Zapfilter

/-! ### Go string helpers -/

/-- Whitespace recognized by Go's `unicode.IsSpace` for the ASCII/Latin-1
range (`strings.Fields` and `strings.TrimSpace` split on these). -/
def goIsSpace (c : Char) : Bool :=
  c = ' ' || c = '\t' || c = '\n' || c = Char.ofNat 11 || c = Char.ofNat 12 ||
    c = '\r' || c = Char.ofNat 0x85 || c = Char.ofNat 0xA0

/-- Model of Go `strings.Split(s, sep)` for a one-character separator,
on character lists: `splitOnChar ',' [] = [[]]`, exactly like Go's
`strings.Split("", ",") = [""]`. -/
def splitOnChar (sep : Char) : List Char → List (List Char)
  | [] => [[]]
  | c :: rest =>
    if c = sep then [] :: splitOnChar sep rest
    else
      match splitOnChar sep rest with
      | [] => [[c]]
      | g :: gs => (c :: g) :: gs

/-- Model of Go `strings.Split(s, string sep)` on `String`. -/
def goSplit (s : String) (sep : Char) : List String :=
  (splitOnChar sep s.data).map String.mk

/-- Split a character list at every character satisfying `p`, keeping empty
groups (helper for the model of `strings.Fields`). -/
def splitByPred (p : Char → Bool) : List Char → List (List Char)
  | [] => [[]]
  | c :: rest =>
    if p c then [] :: splitByPred p rest
    else
      match splitByPred p rest with
      | [] => [[c]]
      | g :: gs => (c :: g) :: gs

/-- Model of Go `strings.Fields`: split around runs of whitespace and drop
the empty pieces. -/
def goFields (s : String) : List String :=
  ((splitByPred goIsSpace s.data).map String.mk).filter (fun t => decide (t ≠ ""))

/-- Model of Go `strings.TrimSpace`. -/
def goTrimSpace (s : String) : String :=
  String.mk (((s.data.dropWhile goIsSpace).reverse.dropWhile goIsSpace).reverse)

/-- Model of ASCII `strings.ToLower` (the rule keywords are all ASCII). -/
def goToLower (s : String) : String :=
  String.mk (s.data.map Char.toLower)

/-- Split at the first `':'`: model of Go `strings.SplitN(rule, ":", 2)`.
`none` means the rule contains no `':'` (Go returns a single part). -/
def splitFirstColon : List Char → Option (List Char × List Char)
  | [] => none
  | c :: rest =>
    if c = ':' then some ([], rest)
    else
      match splitFirstColon rest with
      | none => none
      | some (l, r) => some (c :: l, r)

/-! ### Model of Go `path.Match`

Translated from `go/src/path/match.go` (`Match`, `scanChunk`, `matchChunk`,
`getEsc`).  Strings are treated as lists of runes; the Go code walks bytes
but decodes one rune at a time in the places where the distinction matters,
so on well-formed input the two views agree.  Loops whose progress is not
structural run on fuel; fuel `n + 1` suffices for an input of length `n`
because every Go loop iteration below consumes at least one pattern
character. -/

/-- Result of `matchChunk`: `badPattern` is `ErrBadPattern`, `noMatch` is
`ok = false` with a nil error, `matched rest` is a successful match leaving
`rest` of the name. -/
inductive ChunkResult where
  | fuelOut
  | badPattern
  | noMatch
  | matched (rest : List Char)
deriving DecidableEq, Repr

/-- Result of `Match`: either `ErrBadPattern` or a boolean verdict. -/
inductive MatchResult where
  | fuelOut
  | badPattern
  | result (b : Bool)
deriving DecidableEq, Repr

/-- Go `getEsc`: parse one (possibly `\`-escaped) character of a `[...]`
class; `none` is `ErrBadPattern`.  Go additionally errors when nothing
follows the parsed character (the class is unterminated). -/
def getEsc : List Char → Option (Char × List Char)
  | [] => none
  | c :: rest =>
    if c = '-' || c = ']' then none
    else if c = '\\' then
      match rest with
      | [] => none
      | d :: rest2 => if rest2.isEmpty then none else some (d, rest2)
    else if rest.isEmpty then none else some (c, rest)

/-- The range-parsing loop inside `matchChunk`'s `[` case: consume
`lo`(-`hi`) pairs until an unescaped `]`, accumulating whether the rune `r`
fell in some range.  Result `none` is out of fuel, `some (.error ())` is
`ErrBadPattern`, `some (.ok (m, rest))` leaves `rest` of the chunk. -/
def matchRanges : Nat → Char → Bool → Nat → List Char → Option (Except Unit (Bool × List Char))
  | 0, _, _, _, _ => none
  | _ + 1, _, _, _, [] => some (.error ())
  | fuel + 1, r, acc, nrange, c :: rest =>
    if c = ']' ∧ 0 < nrange then some (.ok (acc, rest))
    else
      match getEsc (c :: rest) with
      | none => some (.error ())
      | some (lo, chunk2) =>
        match chunk2 with
        | [] => some (.error ())
        | d :: chunk3 =>
          if d = '-' then
            match getEsc chunk3 with
            | none => some (.error ())
            | some (hi, chunk4) =>
              matchRanges fuel r (acc || (lo ≤ r ∧ r ≤ hi)) (nrange + 1) chunk4
          else
            matchRanges fuel r (acc || (lo ≤ r ∧ r ≤ lo)) (nrange + 1) (d :: chunk3)

/-- Go `matchChunk chunk s` with the accumulated `failed` flag: match the
wildcard-free `chunk` at the beginning of `s`, continuing to scan the chunk
for syntax errors after a mismatch. -/
def matchChunk : Nat → List Char → List Char → Bool → ChunkResult
  | 0, _, _, _ => .fuelOut
  | _ + 1, [], s, failed => if failed then .noMatch else .matched s
  | fuel + 1, c :: chunkRest, s, failed0 =>
    let failed := failed0 || s.isEmpty
    if c = '[' then
      let r : Char := if failed then Char.ofNat 0 else s.headD (Char.ofNat 0)
      let s2 : List Char := if failed then s else s.tail
      let negated : Bool := decide (chunkRest.head? = some '^')
      let chunkR : List Char :=
        if chunkRest.head? = some '^' then chunkRest.tail else chunkRest
      match matchRanges (chunkR.length + 1) r false 0 chunkR with
      | none => .fuelOut
      | some (.error _) => .badPattern
      | some (.ok (classMatch, chunkAfter)) =>
        matchChunk fuel chunkAfter s2 (failed || (classMatch = negated))
    else if c = '?' then
      let fs : Bool × List Char :=
        if failed then (failed, s)
        else
          match s with
          | [] => (failed, s)
          | ch :: srest => (failed || ch = '/', srest)
      matchChunk fuel chunkRest fs.2 fs.1
    else if c = '\\' then
      match chunkRest with
      | [] => .badPattern
      | d :: chunkRest2 =>
        let fs : Bool × List Char :=
          if failed then (failed, s)
          else
            match s with
            | [] => (failed, s)
            | ch :: srest => (failed || d ≠ ch, srest)
        matchChunk fuel chunkRest2 fs.2 fs.1
    else
      let fs : Bool × List Char :=
        if failed then (failed, s)
        else
          match s with
          | [] => (failed, s)
          | ch :: srest => (failed || c ≠ ch, srest)
      matchChunk fuel chunkRest fs.2 fs.1

/-- The `Scan` loop of Go `scanChunk`: split the (star-stripped) pattern into
the next chunk and the remainder, where an unbracketed `*` ends the chunk. -/
def scanSplit : Bool → List Char → List Char × List Char
  | _, [] => ([], [])
  | inrange, c :: rest =>
    if c = '*' ∧ inrange = false then ([], c :: rest)
    else if c = '\\' then
      match rest with
      | [] => ([c], [])
      | d :: rest2 =>
        let p := scanSplit inrange rest2
        (c :: d :: p.1, p.2)
    else
      let inrange2 : Bool := if c = '[' then true else if c = ']' then false else inrange
      let p := scanSplit inrange2 rest
      (c :: p.1, p.2)

/-- Go `scanChunk`: strip leading `*`s (recording whether there was one) and
split off the next literal chunk. -/
def scanChunk (pattern : List Char) : Bool × List Char × List Char :=
  let star := decide (pattern.head? = some '*')
  let p := pattern.dropWhile (fun c => c = '*')
  let q := scanSplit false p
  (star, q.1, q.2)

/-- Result of the star-retry loop in Go `Match`: keep skipping one name
character (stopping at `/`) until the chunk matches; `continueWith t`
resumes the outer loop with the rest of the name. -/
inductive StarResult where
  | fuelOut
  | badPattern
  | giveUp
  | continueWith (t : List Char)
deriving DecidableEq, Repr

/-- The `star` retry loop of Go `Match`. -/
def starTry (chunk rest : List Char) : List Char → StarResult
  | [] => .giveUp
  | c :: nameRest =>
    if c = '/' then .giveUp
    else
      match matchChunk (chunk.length + 1) chunk nameRest false with
      | .fuelOut => .fuelOut
      | .badPattern => .badPattern
      | .noMatch => starTry chunk rest nameRest
      | .matched t =>
        if rest.isEmpty && !t.isEmpty then starTry chunk rest nameRest
        else .continueWith t

/-- The `Pattern` loop of Go `Match`. -/
def matchAux : Nat → List Char → List Char → MatchResult
  | 0, _, _ => .fuelOut
  | _ + 1, [], name => .result name.isEmpty
  | fuel + 1, pattern@(_ :: _), name =>
    let scq := scanChunk pattern
    let star := scq.1
    let chunk := scq.2.1
    let rest := scq.2.2
    if star && chunk.isEmpty then .result (!name.contains '/')
    else
      match matchChunk (chunk.length + 1) chunk name false with
      | .fuelOut => .fuelOut
      | .badPattern => .badPattern
      | .matched t =>
        if t.isEmpty || !rest.isEmpty then matchAux fuel rest t
        else if star then
          match starTry chunk rest name with
          | .fuelOut => .fuelOut
          | .badPattern => .badPattern
          | .giveUp => .result false
          | .continueWith t2 => matchAux fuel rest t2
        else .result false
      | .noMatch =>
        if star then
          match starTry chunk rest name with
          | .fuelOut => .fuelOut
          | .badPattern => .badPattern
          | .giveUp => .result false
          | .continueWith t2 => matchAux fuel rest t2
        else .result false

/-- Go `path.Match pattern name`.  Each iteration of the `Pattern` loop
consumes at least one pattern character, so fuel `pattern.length + 1` is
never exhausted. -/
def pathMatch (pattern name : List Char) : MatchResult :=
  matchAux (pattern.length + 1) pattern name

/-- The boolean `matched` as `ByNamespaces` uses it: Go discards the error
(`matched, _ := path.Match(...)`) and `Match` returns `false` alongside
`ErrBadPattern`. -/
def goPathMatch (pattern name : List Char) : Bool :=
  match pathMatch pattern name with
  | .result b => b
  | _ => false

example : goPathMatch "demo*".data "demo.child".data = true := by decide
example : goPathMatch "demo*".data "other".data = false := by decide
example : goPathMatch "*".data "a/b".data = false := by decide
example : goPathMatch "fo?".data "foo".data = true := by decide
example : goPathMatch "[a-c]x".data "bx".data = true := by decide
example : goPathMatch "[^a-c]x".data "dx".data = true := by decide

/-! ### Fuel adequacy of the `path.Match` model

Every iteration of each Go loop consumes at least one pattern character, so
a fuel of pattern length plus one never runs out.  The lemmas below certify
that the `fuelOut` results are unreachable from `pathMatch`. -/

theorem getEsc_length : ∀ (chunk : List Char) (r : Char) (rest : List Char),
    getEsc chunk = some (r, rest) → rest.length < chunk.length := by
  intro chunk r rest h
  cases chunk with
  | nil => exact Option.noConfusion h
  | cons c crest =>
    simp only [getEsc] at h
    by_cases h1 : (c = '-' || c = ']') = true
    · rw [if_pos h1] at h
      exact Option.noConfusion h
    · rw [if_neg h1] at h
      by_cases h2 : c = '\\'
      · rw [if_pos h2] at h
        cases crest with
        | nil => exact Option.noConfusion h
        | cons d rest2 =>
          simp only [] at h
          by_cases h3 : rest2.isEmpty = true
          · rw [if_pos h3] at h
            exact Option.noConfusion h
          · rw [if_neg h3] at h
            injection (Option.some.inj h) with hd hrest
            subst hrest
            simp only [List.length_cons]
            omega
      · rw [if_neg h2] at h
        by_cases h3 : crest.isEmpty = true
        · rw [if_pos h3] at h
          exact Option.noConfusion h
        · rw [if_neg h3] at h
          injection (Option.some.inj h) with hd hrest
          subst hrest
          simp only [List.length_cons]
          omega

theorem matchRanges_spec : ∀ (fuel : Nat) (r : Char) (acc : Bool) (n : Nat)
    (chunk : List Char), chunk.length < fuel →
    (matchRanges fuel r acc n chunk ≠ none ∧
      ∀ m rest, matchRanges fuel r acc n chunk = some (.ok (m, rest)) →
        rest.length < chunk.length) := by
  intro fuel
  induction fuel with
  | zero =>
    intro r acc n chunk h
    exact absurd h (by omega)
  | succ fuel ih =>
    intro r acc n chunk h
    cases chunk with
    | nil =>
      constructor
      · intro hx
        exact Option.noConfusion hx
      · intro m rest hx
        exact Except.noConfusion (Option.some.inj hx)
    | cons c crest =>
      simp only [matchRanges]
      by_cases h1 : (c = ']' ∧ 0 < n)
      · rw [if_pos h1]
        constructor
        · intro hx
          exact Option.noConfusion hx
        · intro m rest hx
          injection (Except.ok.inj (Option.some.inj hx)) with hm hrest
          subst hrest
          simp only [List.length_cons]
          omega
      · rw [if_neg h1]
        cases hg : getEsc (c :: crest) with
        | none =>
          constructor
          · intro hx
            exact Option.noConfusion hx
          · intro m rest hx
            exact Except.noConfusion (Option.some.inj hx)
        | some lc =>
          obtain ⟨lo, chunk2⟩ := lc
          have hlen2 : chunk2.length < (c :: crest).length := getEsc_length _ _ _ hg
          cases chunk2 with
          | nil =>
            constructor
            · intro hx
              exact Option.noConfusion hx
            · intro m rest hx
              exact Except.noConfusion (Option.some.inj hx)
          | cons d chunk3 =>
            simp only []
            by_cases h2 : d = '-'
            · rw [if_pos h2]
              cases hg2 : getEsc chunk3 with
              | none =>
                constructor
                · intro hx
                  exact Option.noConfusion hx
                · intro m rest hx
                  exact Except.noConfusion (Option.some.inj hx)
              | some lc4 =>
                obtain ⟨hi, chunk4⟩ := lc4
                have hlen4 : chunk4.length < chunk3.length := getEsc_length _ _ _ hg2
                have hlt : chunk4.length < fuel := by
                  simp only [List.length_cons] at hlen2 h
                  omega
                constructor
                · exact (ih r _ (n + 1) chunk4 hlt).1
                · intro m rest hx
                  have h5 := (ih r _ (n + 1) chunk4 hlt).2 m rest hx
                  simp only [List.length_cons] at hlen2 ⊢
                  omega
            · rw [if_neg h2]
              have hlt : (d :: chunk3).length < fuel := by
                simp only [List.length_cons] at hlen2 h ⊢
                omega
              constructor
              · exact (ih r _ (n + 1) (d :: chunk3) hlt).1
              · intro m rest hx
                have h5 := (ih r _ (n + 1) (d :: chunk3) hlt).2 m rest hx
                simp only [List.length_cons] at hlen2 h5 ⊢
                omega

theorem matchChunk_fuel : ∀ (fuel : Nat) (chunk s : List Char) (failed : Bool),
    chunk.length < fuel → matchChunk fuel chunk s failed ≠ .fuelOut := by
  intro fuel
  induction fuel with
  | zero =>
    intro chunk s failed h
    exact absurd h (by omega)
  | succ fuel ih =>
    intro chunk s failed h
    cases chunk with
    | nil =>
      simp only [matchChunk]
      split <;> intro hx <;> exact ChunkResult.noConfusion hx
    | cons c chunkRest =>
      simp only [matchChunk]
      by_cases h1 : c = '['
      · rw [if_pos h1]
        split
        · rename_i heq
          exact absurd heq ((matchRanges_spec _ _ _ _ _ (Nat.lt_succ_self _)).1)
        · intro hx
          exact ChunkResult.noConfusion hx
        · rename_i classMatch chunkAfter heq
          have hca := (matchRanges_spec _ _ _ _ _ (Nat.lt_succ_self _)).2 _ _ heq
          have hcr : (if chunkRest.head? = some '^' then chunkRest.tail
              else chunkRest).length ≤ chunkRest.length := by
            split
            · cases chunkRest <;> simp
            · exact Nat.le_refl _
          apply ih
          simp only [List.length_cons] at h
          omega
      · rw [if_neg h1]
        by_cases h2 : c = '?'
        · rw [if_pos h2]
          apply ih
          simp only [List.length_cons] at h
          omega
        · rw [if_neg h2]
          by_cases h3 : c = '\\'
          · rw [if_pos h3]
            cases chunkRest with
            | nil =>
              intro hx
              exact ChunkResult.noConfusion hx
            | cons d chunkRest2 =>
              apply ih
              simp only [List.length_cons] at h
              omega
          · rw [if_neg h3]
            apply ih
            simp only [List.length_cons] at h
            omega

theorem starTry_ne_fuelOut : ∀ (chunk rest name : List Char),
    starTry chunk rest name ≠ .fuelOut := by
  intro chunk rest name
  induction name with
  | nil =>
    intro hx
    exact StarResult.noConfusion hx
  | cons c nameRest ih =>
    simp only [starTry]
    by_cases h1 : c = '/'
    · rw [if_pos h1]
      intro hx
      exact StarResult.noConfusion hx
    · rw [if_neg h1]
      cases hmc : matchChunk (chunk.length + 1) chunk nameRest false with
      | fuelOut => exact absurd hmc (matchChunk_fuel _ _ _ _ (Nat.lt_succ_self _))
      | badPattern =>
        intro hx
        exact StarResult.noConfusion hx
      | noMatch => exact ih
      | matched t =>
        simp only []
        by_cases h2 : (rest.isEmpty && !t.isEmpty) = true
        · rw [if_pos h2]
          exact ih
        · rw [if_neg h2]
          intro hx
          exact StarResult.noConfusion hx

theorem scanSplit_append : ∀ (b : Bool) (p : List Char),
    (scanSplit b p).1 ++ (scanSplit b p).2 = p
  | _, [] => rfl
  | b, c :: rest => by
    rw [scanSplit.eq_def]
    simp only []
    by_cases h1 : (c = '*' ∧ b = false)
    · rw [if_pos h1]
      rfl
    · rw [if_neg h1]
      by_cases h2 : c = '\\'
      · rw [if_pos h2]
        cases rest with
        | nil => rfl
        | cons d rest2 =>
          have h3 := scanSplit_append b rest2
          rw [List.cons_append, List.cons_append, h3]
      · rw [if_neg h2]
        have h3 := scanSplit_append (if c = '[' then true else if c = ']' then false else b) rest
        rw [List.cons_append, h3]

theorem scanSplit_chunk_ne_nil (c : Char) (rest : List Char) (hc : c ≠ '*') :
    (scanSplit false (c :: rest)).1 ≠ [] := by
  rw [scanSplit.eq_def]
  simp only []
  rw [if_neg (by intro hx; exact hc hx.1)]
  by_cases h2 : c = '\\'
  · rw [if_pos h2]
    cases rest with
    | nil => simp
    | cons d rest2 => simp
  · rw [if_neg h2]
    simp

theorem length_dropWhile_le_self (p : Char → Bool) :
    ∀ l : List Char, (l.dropWhile p).length ≤ l.length := by
  intro l
  induction l with
  | nil => exact Nat.le_refl 0
  | cons c rest ih =>
    rw [List.dropWhile_cons]
    by_cases h : p c = true
    · rw [if_pos h]
      simp only [List.length_cons]
      omega
    · rw [if_neg h]

theorem scanChunk_def (pattern : List Char) :
    scanChunk pattern = (decide (pattern.head? = some '*'),
      (scanSplit false (pattern.dropWhile (fun c => c = '*'))).1,
      (scanSplit false (pattern.dropWhile (fun c => c = '*'))).2) := rfl

/-- The remaining pattern after one `scanChunk` is strictly shorter: either
a leading star was stripped, or the chunk is nonempty. -/
theorem scanChunk_rest_lt (x : Char) (prest : List Char) :
    (scanChunk (x :: prest)).2.2.length < (x :: prest).length := by
  rw [scanChunk_def]
  simp only []
  by_cases hx : x = '*'
  · subst hx
    have h2 : (('*' :: prest).dropWhile (fun c => c = '*')).length < ('*' :: prest).length := by
      rw [List.dropWhile_cons, if_pos (by decide)]
      have h3 := length_dropWhile_le_self (fun c => decide (c = '*')) prest
      simp only [List.length_cons]
      omega
    have h4 := congrArg List.length (scanSplit_append false
      (('*' :: prest).dropWhile (fun c => c = '*')))
    rw [List.length_append] at h4
    omega
  · have hdw : (x :: prest).dropWhile (fun c => c = '*') = x :: prest := by
      rw [List.dropWhile_cons, if_neg (by simp [hx])]
    rw [hdw]
    have hcne := scanSplit_chunk_ne_nil x prest hx
    have h4 := congrArg List.length (scanSplit_append false (x :: prest))
    rw [List.length_append] at h4
    have h5 : 0 < (scanSplit false (x :: prest)).1.length := List.length_pos.mpr hcne
    omega

theorem matchAux_fuel : ∀ (fuel : Nat) (pattern name : List Char),
    pattern.length < fuel → matchAux fuel pattern name ≠ .fuelOut := by
  intro fuel
  induction fuel with
  | zero =>
    intro pattern name h
    exact absurd h (by omega)
  | succ fuel ih =>
    intro pattern name h
    cases pattern with
    | nil =>
      intro hx
      exact MatchResult.noConfusion hx
    | cons x prest =>
      have hrest := scanChunk_rest_lt x prest
      simp only [matchAux]
      by_cases hse : ((scanChunk (x :: prest)).1 && (scanChunk (x :: prest)).2.1.isEmpty) = true
      · rw [if_pos hse]
        intro hx
        exact MatchResult.noConfusion hx
      · rw [if_neg hse]
        split
        · rename_i heq
          exact absurd heq (matchChunk_fuel _ _ _ _ (Nat.lt_succ_self _))
        · intro hx
          exact MatchResult.noConfusion hx
        · rename_i t heq
          by_cases hc1 : (t.isEmpty || !(scanChunk (x :: prest)).2.2.isEmpty) = true
          · rw [if_pos hc1]
            apply ih
            omega
          · rw [if_neg hc1]
            by_cases hstar : (scanChunk (x :: prest)).1 = true
            · rw [if_pos hstar]
              split
              · rename_i heq2
                exact absurd heq2 (starTry_ne_fuelOut _ _ _)
              · intro hx
                exact MatchResult.noConfusion hx
              · intro hx
                exact MatchResult.noConfusion hx
              · rename_i t2 heq2
                apply ih
                omega
            · rw [if_neg hstar]
              intro hx
              exact MatchResult.noConfusion hx
        · by_cases hstar : (scanChunk (x :: prest)).1 = true
          · rw [if_pos hstar]
            split
            · rename_i heq2
              exact absurd heq2 (starTry_ne_fuelOut _ _ _)
            · intro hx
              exact MatchResult.noConfusion hx
            · intro hx
              exact MatchResult.noConfusion hx
            · rename_i t2 heq2
              apply ih
              omega
          · rw [if_neg hstar]
            intro hx
            exact MatchResult.noConfusion hx

/-- The bundled fuel of `pathMatch` is sufficient: the out-of-fuel results
are unreachable, so `goPathMatch`'s catch-all arm only ever sees
`ErrBadPattern`. -/
theorem pathMatch_ne_fuelOut (pattern name : List Char) :
    pathMatch pattern name ≠ .fuelOut :=
  matchAux_fuel (pattern.length + 1) pattern name (Nat.lt_succ_self _)

/-! ### Data model: levels, entries, fields -/

/-- The `zapcore.Level` enumeration (Debug = -1 through Fatal = 5). -/
inductive Level where
  | debugLevel
  | infoLevel
  | warnLevel
  | errorLevel
  | dpanicLevel
  | panicLevel
  | fatalLevel
deriving DecidableEq, Repr

/-- The numeric value of a `zapcore.Level` (an `int8` in Go). -/
def Level.toInt : Level → Int
  | .debugLevel => -1
  | .infoLevel => 0
  | .warnLevel => 1
  | .errorLevel => 2
  | .dpanicLevel => 3
  | .panicLevel => 4
  | .fatalLevel => 5

/-- One structured log field (opaque to every built-in filter). -/
structure Field where
  key : String
  value : String
deriving DecidableEq, Repr

/-- The parts of `zapcore.Entry` that the filters read. -/
structure Entry where
  level : Level
  loggerName : String
deriving DecidableEq, Repr

/-- Build an entry (`zapcore.Entry{Level: l, LoggerName: name}`). -/
def mkEntry (l : Level) (name : String) : Entry :=
  { level := l, loggerName := name }

/-! ### The filter algebra

A Go `FilterFunc` value reachable from this package's constructors is one
of: the `nil` function value, `alwaysFalseFilter`, `alwaysTrueFilter`, a
`ByNamespaces` closure (carrying its compiled pattern list), an
`ExactLevel`/`MinimumLevel` closure, or an `Any`/`All`/`Reverse` closure
over other filters.  The closures become a tree; the variadic `...FilterFunc`
slices become the mutually defined list type `FList`. -/

mutual
inductive Filter where
  | nilF
  | alwaysFalse
  | alwaysTrue
  | byNS (patterns : List String)
  | exact (level : Level)
  | minLevel (level : Level)
  | reverse (f : Filter)
  | anyOf (fs : FList)
  | allOf (fs : FList)
inductive FList where
  | nil
  | cons (f : Filter) (fs : FList)
end

/-- The Go `filter == nil` test. -/
def Filter.isNil : Filter → Bool
  | .nilF => true
  | _ => false

/-- View an `FList` as an ordinary list (for stating membership). -/
def FList.toList : FList → List Filter
  | .nil => []
  | .cons f fs => f :: fs.toList

/-- Go `Any(filters...)`. -/
def Any (fs : FList) : Filter := .anyOf fs

/-- Go `All(filters...)`. -/
def All (fs : FList) : Filter := .allOf fs

/-- Go `ExactLevel(level)`. -/
def ExactLevel (l : Level) : Filter := .exact l

/-- Go `MinimumLevel(level)`. -/
def MinimumLevel (l : Level) : Filter := .minLevel l

/-- Go `Reverse(filter)`. -/
def Reverse (f : Filter) : Filter := .reverse f

/-! ### ByNamespaces -/

/-- The per-name verdict computed inside the `ByNamespaces` closure on a
cache miss: one pass over the patterns, short-circuiting each category
(`!matchExclude` / `!matchInclude` in the case guards), combined as
`matchInclude && !matchExclude`.  Go indexes `pattern[0]` in both case
guards without a length check, so an empty pattern is an out-of-range panic:
`none`. -/
def computeMatchGo : List String → String → Bool → Bool → Option Bool
  | [], _, mi, me => some (mi && !me)
  | p :: rest, name, mi, me =>
    match p.data with
    | [] => none
    | c :: ptail =>
      if c = '-' && !me then
        computeMatchGo rest name mi (goPathMatch ptail name.data)
      else if c ≠ '-' && !mi then
        computeMatchGo rest name (goPathMatch p.data name.data) me
      else
        computeMatchGo rest name mi me

/-- The verdict for a name not yet in the cache (`matchInclude` and
`matchExclude` start out false). -/
def computeMatch (patterns : List String) (name : String) : Option Bool :=
  computeMatchGo patterns name false false

/-- The `hasIncludeWildcard` / `hasExclude` flags of the always-true
edge-case scan in `ByNamespaces` (empty patterns are skipped by the
`continue`). -/
def fastFlags : List String → Bool × Bool
  | [] => (false, false)
  | p :: rest =>
    let f := fastFlags rest
    if p = "" then f
    else (f.1 || p = "*", f.2 || decide (p.data.head? = some '-'))

/-- Go `ByNamespaces(input)`: empty input compiles to `alwaysFalseFilter`;
a spec with an include wildcard and no exclusions compiles to
`alwaysTrueFilter`; otherwise the pattern-matching closure. -/
def ByNamespaces (input : String) : Filter :=
  if input = "" then .alwaysFalse
  else
    let patterns := goSplit input ','
    let f := fastFlags patterns
    if f.1 && !f.2 then .alwaysTrue
    else .byNS patterns

/-- Lookup in the model of the closure's `matchMap` (newest entry first). -/
def cacheLookup : List (String × Bool) → String → Option Bool
  | [], _ => none
  | (k, v) :: rest, n => if k = n then some v else cacheLookup rest n

/-- One evaluation of the general `ByNamespaces` closure with its
memoization map made explicit: a hit returns the cached verdict, a miss
computes, stores and returns it.  `none` models the `pattern[0]` panic
(which in Go escapes before the final store). -/
def bnEval (patterns : List String) (cache : List (String × Bool)) (name : String) :
    Option (Bool × List (String × Bool)) :=
  match cacheLookup cache name with
  | some b => some (b, cache)
  | none =>
    match computeMatch patterns name with
    | none => none
    | some b => some (b, (name, b) :: cache)

/-! ### Evaluation of filters

Stateless semantics of a `FilterFunc` call: `none` models a Go panic
(calling a nil function, or the `pattern[0]` indexing panic inside a
`ByNamespaces` closure evaluating a not-yet-cached name; `bnEval` above is
the stateful refinement and is proved coherent with `computeMatch`).
`Any`/`All` walk their argument slice in order, skipping nil entries
without calling them. -/

mutual
def evalF : Filter → Entry → List Field → Option Bool
  | .nilF, _, _ => none
  | .alwaysFalse, _, _ => some false
  | .alwaysTrue, _, _ => some true
  | .byNS patterns, e, _ => computeMatch patterns e.loggerName
  | .exact l, e, _ => some (e.level = l)
  | .minLevel l, e, _ => some (l.toInt ≤ e.level.toInt)
  | .reverse f, e, flds =>
    match evalF f e flds with
    | none => none
    | some b => some (!b)
  | .anyOf fs, e, flds => evalAny fs e flds
  | .allOf fs, e, flds => evalAll fs e flds false
def evalAny : FList → Entry → List Field → Option Bool
  | .nil, _, _ => some false
  | .cons f fs, e, flds =>
    match f with
    | .nilF => evalAny fs e flds
    | g =>
      match evalF g e flds with
      | none => none
      | some true => some true
      | some false => evalAny fs e flds
def evalAll : FList → Entry → List Field → Bool → Option Bool
  | .nil, _, _, acc => some acc
  | .cons f fs, e, flds, acc =>
    match f with
    | .nilF => evalAll fs e flds acc
    | g =>
      match evalF g e flds with
      | none => none
      | some false => some false
      | some true => evalAll fs e flds true
end

example : evalF (Any .nil) (mkEntry .debugLevel "x") [] = some false := by decide
example : evalF (All .nil) (mkEntry .debugLevel "x") [] = some false := by decide

/-! ### ParseRules -/

/-- Parse errors: Go `fmt.Errorf("bad syntax")` and
`fmt.Errorf("unsupported keyword: %q", left)` — note the payload is `left`,
the whole level segment of the rule, exactly as in the source. -/
inductive ParseErr where
  | badSyntax
  | unsupportedKeyword (left : String)
deriving DecidableEq, Repr

/-- The seven levels in severity order (`allLevels` in the source). -/
def allLevels : List Level :=
  [.debugLevel, .infoLevel, .warnLevel, .errorLevel, .dpanicLevel, .panicLevel, .fatalLevel]

/-- `enabledLevels[level] = true` (the map write in the keyword switch). -/
def setLevel (s : Level → Bool) (l : Level) : Level → Bool :=
  fun x => if x = l then true else s x

/-- Branch selection of the keyword switch in `ParseRules`: which levels a
(lowercased) token enables, `none` for the `default:` unsupported-keyword
arm.  (A Go `switch` on a string with several values per `case` is this
equality chain.) -/
def keywordLevels (t : String) : Option (List Level) :=
  if t = "" || t = "*" || t = "debug+" then some allLevels
  else if t = "debug" then some [.debugLevel]
  else if t = "info" then some [.infoLevel]
  else if t = "info+" then
    some [.infoLevel, .warnLevel, .errorLevel, .dpanicLevel, .panicLevel, .fatalLevel]
  else if t = "warn" then some [.warnLevel]
  else if t = "warn+" then
    some [.warnLevel, .errorLevel, .dpanicLevel, .panicLevel, .fatalLevel]
  else if t = "error" then some [.errorLevel]
  else if t = "error+" then some [.errorLevel, .dpanicLevel, .panicLevel, .fatalLevel]
  else if t = "dpanic" then some [.dpanicLevel]
  else if t = "dpanic+" then some [.dpanicLevel, .panicLevel, .fatalLevel]
  else if t = "panic" then some [.panicLevel]
  else if t = "panic+" then some [.panicLevel, .fatalLevel]
  else if t = "fatal" || t = "fatal+" then some [.fatalLevel]
  else none

/-- One arm of the keyword switch: write `true` into `enabledLevels` for
each level the keyword enables (`enabledLevels[level] = true` per level). -/
def applyLevelKeyword (s : Level → Bool) (tok : String) : Option (Level → Bool) :=
  match keywordLevels (goToLower tok) with
  | none => none
  | some ls => some (ls.foldl setLevel s)

/-- Whether a level token is one of the recognized keywords. -/
def recognizedKeyword (tok : String) : Bool :=
  (applyLevelKeyword (fun _ => false) tok).isSome

/-- The `for _, leftPart := range strings.Split(left, ",")` loop over the
level tokens of one rule. -/
def parseLevels : (Level → Bool) → List String → Option (Level → Bool)
  | s, [] => some s
  | s, tok :: rest =>
    match applyLevelKeyword s tok with
    | none => none
    | some s2 => parseLevels s2 rest

/-- `len(enabledLevels)`: the switch only ever stores `true`, so the map
size is the number of enabled levels. -/
def levelSetSize (s : Level → Bool) : Nat :=
  (allLevels.filter s).length

/-- The `levelFilter` accumulation
`levelFilter = Any(ExactLevel(level), levelFilter)` starting from nil.
Go ranges over a map in unspecified order; the enabled levels are folded in
severity order here — the compiled predicate's extension ("the entry's
level is one of the enabled levels") does not depend on the order. -/
def buildLevelFilter (s : Level → Bool) : Filter :=
  (allLevels.filter s).foldl
    (fun acc l => Any (.cons (ExactLevel l) (.cons acc .nil))) Filter.nilF

/-- The body of one loop iteration of `ParseRules` after the `:`-split:
parse the level tokens of `left` and build the rule clause over `right`.
Seven enabled levels short-circuit to a bare `ByNamespaces` clause. -/
def compileParts (left right : String) : Except ParseErr Filter :=
  match parseLevels (fun _ => false) (goSplit left ',') with
  | none => .error (.unsupportedKeyword left)
  | some s =>
    if levelSetSize s = 7 then .ok (ByNamespaces right)
    else .ok (All (.cons (buildLevelFilter s) (.cons (ByNamespaces right) .nil)))

/-- One rule token of `ParseRules`: split on the first `:`; no colon means
an empty `left`; a colon with an empty side is `bad syntax`. -/
def compileRule (rule : String) : Except ParseErr Filter :=
  match splitFirstColon rule.data with
  | none => compileParts "" rule
  | some (l, r) =>
    if l.isEmpty || r.isEmpty then .error .badSyntax
    else compileParts (String.mk l) (String.mk r)

/-- The rule loop of `ParseRules`:
`topFilter = Any(topFilter, clause)` for each nonempty (trimmed) token. -/
def parseRulesGo : List String → Filter → Except ParseErr Filter
  | [], top => .ok top
  | rule :: rest, top =>
    let rule2 := goTrimSpace rule
    if rule2 = "" then parseRulesGo rest top
    else
      match compileRule rule2 with
      | .error err => .error err
      | .ok clause => parseRulesGo rest (Any (.cons top (.cons clause .nil)))

/-- Go `ParseRules(input)`: split the input into whitespace-separated rule
tokens and accumulate their clauses with `Any`, starting from the nil
filter. -/
def ParseRules (input : String) : Except ParseErr Filter :=
  parseRulesGo (goFields input) .nilF

/-! ### The filtering core -/

/-- The `filteringCore` struct.  The downstream core is an external
collaborator; the only part of it `Write` touches is its own `Write`,
modelled as a function from entry and fields to the returned error
(`none` = nil error). -/
structure filteringCore where
  next : Entry → List Field → Option String
  filter : Filter

/-- Go `NewFilteringCore(next, filter)`: a nil filter is replaced by
`alwaysFalseFilter`. -/
def NewFilteringCore (next : Entry → List Field → Option String) (filter : Filter) :
    filteringCore :=
  { next := next, filter := if filter.isNil then .alwaysFalse else filter }

/-- Go `filteringCore.Write`: evaluate the filter with the fields present;
on false return a nil error without touching the downstream core, on true
return the downstream `Write` result verbatim.  The outer `Option` models a
panic inside the filter; the boolean records whether the downstream `Write`
was invoked. -/
def coreWrite (core : filteringCore) (entry : Entry) (fields : List Field) :
    Option (Option String × Bool) :=
  match evalF core.filter entry fields with
  | none => none
  | some false => some (none, false)
  | some true => some (core.next entry fields, true)

/-! ### Spec-side namespace semantics (for the refinement claims)

These two definitions follow the specification's words, not the code: an
inclusion pattern is one without a `-` prefix, an exclusion pattern has its
`-` stripped, and a name matches the spec when some inclusion pattern
glob-matches it and no exclusion pattern does. -/

/-- Spec wording: "at least one inclusion pattern (no `-` prefix)
glob-matches the logger name". -/
def specMatchesInclusion (patterns : List String) (name : String) : Bool :=
  patterns.any (fun p => !(decide (p.data.head? = some '-')) && goPathMatch p.data name.data)

/-- Spec wording: "some exclusion pattern (`-` prefix, with the prefix
stripped) glob-matches the logger name". -/
def specMatchesExclusion (patterns : List String) (name : String) : Bool :=
  patterns.any (fun p => decide (p.data.head? = some '-') && goPathMatch (p.data.drop 1) name.data)

example : ParseRules "" = .ok .nilF := rfl
example : ParseRules "invalid:*" = .error (.unsupportedKeyword "invalid") := rfl
example : ParseRules ":*" = .error .badSyntax := rfl
example :
    (ParseRules "*:myns info,warn:myns.* error:*").map
      (fun f => evalF f (mkEntry .debugLevel "myns") []) = .ok (some true) := rfl
example :
    (ParseRules "*:myns info,warn:myns.* error:*").map
      (fun f => evalF f (mkEntry .debugLevel "myns.foo") []) = .ok (some false) := rfl
example :
    (ParseRules "*:myns info,warn:myns.* error:*").map
      (fun f => evalF f (mkEntry .infoLevel "myns.foo") []) = .ok (some true) := rfl
example :
    (ParseRules "*:myns info,warn:myns.* error:*").map
      (fun f => evalF f (mkEntry .errorLevel "anything") []) = .ok (some true) := rfl
example :
    (ParseRules "*:myns info,warn:myns.* error:*").map
      (fun f => evalF f (mkEntry .debugLevel "other") []) = .ok (some false) := rfl

/-! ### Helper lemmas -/

theorem string_eq_empty_of_data (s : String) (h : s.data = []) : s = "" := by
  cases s with
  | mk d => cases h; rfl

theorem string_data_of_ne_empty (s : String) (h : s ≠ "") : s.data ≠ [] := by
  intro hd
  exact h (string_eq_empty_of_data s hd)

/-- The star-only pattern matches exactly the names without a `/`
(the trailing-star early return in `Match`). -/
theorem goPathMatch_star (name : List Char) :
    goPathMatch ['*'] name = !(name.contains '/') := rfl

/-- The two edge-case flags of `ByNamespaces` coincide with "some pattern
is `*`" and "some pattern starts with `-`". -/
theorem fastFlags_spec (pats : List String) :
    fastFlags pats = (pats.any (fun p => decide (p = "*")),
                      pats.any (fun p => decide (p.data.head? = some '-'))) := by
  induction pats with
  | nil => rfl
  | cons p rest ih =>
    by_cases hp : p = ""
    · subst hp
      simp [fastFlags, ih]
    · simp [fastFlags, ih, hp, Bool.or_comm]

/-- The always-true fast-path condition of `ByNamespaces`, spelled out. -/
theorem fastCond_iff (pats : List String) :
    ((fastFlags pats).1 && !(fastFlags pats).2) = true ↔
      ((∃ p ∈ pats, p = "*") ∧ ∀ p ∈ pats, p.data.head? ≠ some '-') := by
  rw [fastFlags_spec]
  simp

/-- On a pattern list with no empty pattern, the accumulation loop inside
the `ByNamespaces` closure computes exactly "some inclusion pattern matches
and no exclusion pattern matches" (relative to starting flags). -/
theorem computeMatchGo_spec (name : String) :
    ∀ (pats : List String) (mi me : Bool), (∀ p ∈ pats, p ≠ "") →
      computeMatchGo pats name mi me =
        some ((mi || specMatchesInclusion pats name) &&
              !(me || specMatchesExclusion pats name)) := by
  intro pats
  induction pats with
  | nil =>
    intro mi me _
    simp [computeMatchGo, specMatchesInclusion, specMatchesExclusion]
  | cons p rest ih =>
    intro mi me hne
    have hp : p.data ≠ [] := string_data_of_ne_empty p (hne p (by simp))
    have hrest : ∀ q ∈ rest, q ≠ "" := fun q hq => hne q (by simp [hq])
    cases hdata : p.data with
    | nil => exact absurd hdata hp
    | cons c ptail =>
      simp only [computeMatchGo, hdata]
      by_cases hc : c = '-'
      · subst hc
        cases me with
        | false =>
          rw [if_pos (by simp)]
          rw [ih mi (goPathMatch ptail name.data) hrest]
          simp [specMatchesInclusion, specMatchesExclusion, hdata]
        | true =>
          rw [if_neg (by simp), if_neg (by simp)]
          rw [ih mi true hrest]
          simp [specMatchesInclusion, specMatchesExclusion, hdata]
      · cases mi with
        | false =>
          rw [if_neg (by simp [hc]), if_pos (by simp [hc])]
          rw [ih (goPathMatch (c :: ptail) name.data) me hrest]
          simp [specMatchesInclusion, specMatchesExclusion, hdata, hc]
        | true =>
          rw [if_neg (by simp [hc]), if_neg (by simp [hc])]
          rw [ih true me hrest]
          simp [specMatchesInclusion, specMatchesExclusion, hdata, hc]

/-- `computeMatch` as a closed form on well-formed pattern lists. -/
theorem computeMatch_spec (pats : List String) (name : String)
    (h : ∀ p ∈ pats, p ≠ "") :
    computeMatch pats name =
      some (specMatchesInclusion pats name && !(specMatchesExclusion pats name)) := by
  have := computeMatchGo_spec name pats false false h
  simpa [computeMatch] using this

/-- With an empty pattern in the list, the match loop hits the unguarded
`pattern[0]` and panics, whatever the accumulated flags. -/
theorem computeMatchGo_empty_mem (name : String) :
    ∀ (pats : List String) (mi me : Bool), "" ∈ pats →
      computeMatchGo pats name mi me = none := by
  intro pats
  induction pats with
  | nil => intro mi me h; cases h
  | cons p rest ih =>
    intro mi me h
    rcases List.mem_cons.mp h with h1 | h1
    · cases h1
      rfl
    · cases hdata : p.data with
      | nil => simp only [computeMatchGo, hdata]
      | cons c ptail =>
        simp only [computeMatchGo, hdata]
        split
        · exact ih _ _ h1
        · split
          · exact ih _ _ h1
          · exact ih _ _ h1

/-- `computeMatch` never panics on a list of nonempty patterns. -/
theorem computeMatch_total (pats : List String) (name : String)
    (h : ∀ p ∈ pats, p ≠ "") : computeMatch pats name ≠ none := by
  rw [computeMatch_spec pats name h]
  simp

/-- A pattern list with a `*` member, no `-`-prefixed member, evaluated on a
name without `/`, satisfies the spec-side inclusion and no exclusion. -/
theorem spec_star_noexclude (pats : List String) (name : String)
    (h1 : ∃ p ∈ pats, p = "*")
    (h2 : ∀ p ∈ pats, p.data.head? ≠ some '-')
    (hsl : name.data.contains '/' = false) :
    specMatchesInclusion pats name = true ∧ specMatchesExclusion pats name = false := by
  constructor
  · obtain ⟨p, hmem, hstar⟩ := h1
    subst hstar
    refine List.any_eq_true.mpr ⟨"*", hmem, ?_⟩
    simp [goPathMatch_star]
    simpa using hsl
  · refine List.any_eq_false.mpr ?_
    intro p hmem
    simp [h2 p hmem]

theorem cacheLookup_mem : ∀ (cache : List (String × Bool)) (n : String) (b : Bool),
    cacheLookup cache n = some b → (n, b) ∈ cache := by
  intro cache
  induction cache with
  | nil => intro n b h; cases h
  | cons kv rest ih =>
    intro n b h
    obtain ⟨k, v⟩ := kv
    simp only [cacheLookup] at h
    by_cases hk : k = n
    · rw [if_pos hk] at h
      have hv : v = b := Option.some.inj h
      rw [← hk, ← hv]
      exact List.mem_cons_self _ _
    · rw [if_neg hk] at h
      exact List.mem_cons_of_mem _ (ih n b h)

/-! ### Claim C1 -/

/-- C1 counterexample: the claim quantifies over every spec with an
inclusion pattern and every logger name, but `ByNamespaces "foo,"`
(inclusion pattern `foo`, plus the empty pattern produced by the trailing
comma) panics on the unguarded `pattern[0]` instead of returning true on
the name `foo`, even though the claim's inclusion/exclusion condition holds
there. -/
theorem byNamespaces_inclusion_exclusion_cex :
    ByNamespaces "foo," = Filter.byNS ["foo", ""] ∧
    evalF (ByNamespaces "foo,") (mkEntry .infoLevel "foo") [] = none ∧
    specMatchesInclusion (goSplit "foo," ',') "foo" = true ∧
    specMatchesExclusion (goSplit "foo," ',') "foo" = false :=
  ⟨rfl, rfl, rfl, rfl⟩

/-- C1 (amended): for every namespace spec whose comma-separated patterns
are all nonempty and contain at least one inclusion pattern, and every
logger name not containing `/`, the compiled predicate returns exactly
"some inclusion pattern glob-matches the name and no exclusion pattern
(with the `-` stripped) glob-matches it".  (The nonempty-pattern proviso
rules out the `pattern[0]` panic; the `/`-free proviso is needed because
the always-true fast path ignores `path.Match`'s refusal to let `*` cross a
`/`.) -/
theorem byNamespaces_inclusion_exclusion (input name : String) (lvl : Level)
    (flds : List Field)
    (hne : input ≠ "")
    (hpat : ∀ p ∈ goSplit input ',', p ≠ "")
    (hinc : ∃ p ∈ goSplit input ',', p.data.head? ≠ some '-')
    (hsl : name.data.contains '/' = false) :
    evalF (ByNamespaces input) (mkEntry lvl name) flds =
      some (specMatchesInclusion (goSplit input ',') name &&
        !(specMatchesExclusion (goSplit input ',') name)) := by
  unfold ByNamespaces
  rw [if_neg hne]
  simp only []
  by_cases hf : ((fastFlags (goSplit input ',')).1 && !(fastFlags (goSplit input ',')).2) = true
  · rw [if_pos hf]
    obtain ⟨h1, h2⟩ := (fastCond_iff (goSplit input ',')).mp hf
    obtain ⟨hi, hx⟩ := spec_star_noexclude (goSplit input ',') name h1 h2 hsl
    simp [evalF, hi, hx]
  · rw [if_neg hf]
    simp only [evalF, mkEntry]
    exact computeMatch_spec (goSplit input ',') name hpat

/-- C1 witness at the claim's own example: spec `"foo*,-foo.foo"` matches
`"foo"` and `"foo.bar"` but not `"foo.foo"`. -/
theorem byNamespaces_inclusion_exclusion_witness :
    evalF (ByNamespaces "foo*,-foo.foo") (mkEntry .infoLevel "foo") [] = some true ∧
    evalF (ByNamespaces "foo*,-foo.foo") (mkEntry .infoLevel "foo.bar") [] = some true ∧
    evalF (ByNamespaces "foo*,-foo.foo") (mkEntry .infoLevel "foo.foo") [] = some false :=
  ⟨(byNamespaces_inclusion_exclusion "foo*,-foo.foo" "foo" .infoLevel []
      (by decide) (by decide) (by decide) (by decide)).trans (by decide),
   (byNamespaces_inclusion_exclusion "foo*,-foo.foo" "foo.bar" .infoLevel []
      (by decide) (by decide) (by decide) (by decide)).trans (by decide),
   (byNamespaces_inclusion_exclusion "foo*,-foo.foo" "foo.foo" .infoLevel []
      (by decide) (by decide) (by decide) (by decide)).trans (by decide)⟩

/-! ### Claim C3 -/

/-- C3 counterexample: for the spec `"*"` the always-true fast path fires,
but the general cache-based computation for the same pattern list gives
false on the logger name `"a/b"` (Go's `path.Match` never lets `*` match
across a `/`), so the fast path is observably different from the general
path. -/
theorem byNamespaces_fast_paths_cex :
    ByNamespaces "*" = Filter.alwaysTrue ∧
    evalF (ByNamespaces "*") (mkEntry .infoLevel "a/b") [] = some true ∧
    computeMatch (goSplit "*" ',') "a/b" = some false :=
  ⟨rfl, rfl, rfl⟩

/-- C3 (amended): the empty spec compiles to the always-false predicate;
the always-true predicate is returned exactly when the (nonempty) spec has
some pattern equal to `*` and no pattern starting with `-`; and when the
always-true fast path fires on a spec whose patterns are all nonempty, it
agrees with the general cache-based computation on every logger name that
does not contain `/`. -/
theorem byNamespaces_fast_paths (input : String) :
    (ByNamespaces "" = Filter.alwaysFalse ∧
      ∀ e flds, evalF (ByNamespaces "") e flds = some false) ∧
    (ByNamespaces input = Filter.alwaysTrue ↔
      (input ≠ "" ∧ (∃ p ∈ goSplit input ',', p = "*") ∧
        ∀ p ∈ goSplit input ',', p.data.head? ≠ some '-')) ∧
    (ByNamespaces input = Filter.alwaysTrue →
      (∀ p ∈ goSplit input ',', p ≠ "") →
      ∀ name lvl flds, name.data.contains '/' = false →
        evalF (ByNamespaces input) (mkEntry lvl name) flds =
          computeMatch (goSplit input ',') name) := by
  refine ⟨⟨rfl, fun e flds => rfl⟩, ?_, ?_⟩
  · by_cases hne : input = ""
    · subst hne
      constructor
      · intro h
        have h2 : Filter.alwaysFalse = Filter.alwaysTrue := h
        exact Filter.noConfusion h2
      · rintro ⟨h, -⟩
        exact absurd rfl h
    · unfold ByNamespaces
      rw [if_neg hne]
      simp only []
      by_cases hf : ((fastFlags (goSplit input ',')).1 && !(fastFlags (goSplit input ',')).2) = true
      · rw [if_pos hf]
        obtain ⟨h1, h2⟩ := (fastCond_iff (goSplit input ',')).mp hf
        exact ⟨fun _ => ⟨hne, h1, h2⟩, fun _ => rfl⟩
      · rw [if_neg hf]
        constructor
        · intro h
          exact Filter.noConfusion h
        · rintro ⟨-, h1, h2⟩
          exact absurd ((fastCond_iff (goSplit input ',')).mpr ⟨h1, h2⟩) hf
  · intro h hpat name lvl flds hsl
    have h2 := h
    unfold ByNamespaces at h2
    by_cases hne : input = ""
    · rw [if_pos hne] at h2
      cases h2
    · rw [if_neg hne] at h2
      simp only [] at h2
      by_cases hf : ((fastFlags (goSplit input ',')).1 && !(fastFlags (goSplit input ',')).2) = true
      · rw [h]
        obtain ⟨h1, h3⟩ := (fastCond_iff (goSplit input ',')).mp hf
        obtain ⟨hi, hx⟩ := spec_star_noexclude (goSplit input ',') name h1 h3 hsl
        rw [computeMatch_spec (goSplit input ',') name hpat, hi, hx]
        rfl
      · rw [if_neg hf] at h2
        exact Filter.noConfusion h2

/-- C3 witness: for the spec `"*,-x"` (exclusion present, so no fast path)
the predicate is the general one; and the always-true characterization at
concrete specs. -/
theorem byNamespaces_fast_paths_witness :
    (ByNamespaces "" = Filter.alwaysFalse ∧
      evalF (ByNamespaces "") (mkEntry .debugLevel "any") [] = some false) ∧
    ByNamespaces "*" = Filter.alwaysTrue ∧
    evalF (ByNamespaces "*") (mkEntry .debugLevel "demo") [] =
      computeMatch (goSplit "*" ',') "demo" :=
  ⟨⟨(byNamespaces_fast_paths "").1.1, (byNamespaces_fast_paths "").1.2 _ _⟩,
   (byNamespaces_fast_paths "*").2.1.mpr ⟨by decide, by decide, by decide⟩,
   (byNamespaces_fast_paths "*").2.2 rfl (by decide) "demo" .debugLevel [] (by decide)⟩

/-! ### Claim C9 -/

/-- Soundness of a memoization cache: every stored verdict is the one the
pattern-matching computation produces. -/
def CacheFaithful (patterns : List String) (cache : List (String × Bool)) : Prop :=
  ∀ kv ∈ cache, computeMatch patterns kv.1 = some kv.2

/-- C9: an evaluation of the `ByNamespaces` closure on a faithful cache
returns exactly the pattern-matching verdict for the name, leaves the cache
faithful (entries are never evicted and never changed to a different
value), and any later evaluation for the same name returns the same cached
boolean unchanged. -/
theorem byNamespaces_cache_coherent (patterns : List String)
    (cache : List (String × Bool)) (name : String) (b : Bool)
    (cache2 : List (String × Bool))
    (hc : CacheFaithful patterns cache)
    (h : bnEval patterns cache name = some (b, cache2)) :
    computeMatch patterns name = some b ∧ CacheFaithful patterns cache2 ∧
      bnEval patterns cache2 name = some (b, cache2) := by
  unfold bnEval at h
  cases hl : cacheLookup cache name with
  | some b0 =>
    rw [hl] at h
    injection (Option.some.inj h) with hb hcache
    subst hb
    subst hcache
    refine ⟨hc _ (cacheLookup_mem _ _ _ hl), hc, ?_⟩
    unfold bnEval
    rw [hl]
  | none =>
    rw [hl] at h
    cases hm : computeMatch patterns name with
    | none => rw [hm] at h; cases h
    | some b1 =>
      rw [hm] at h
      injection (Option.some.inj h) with hb hcache
      subst hb
      subst hcache
      have hfaith : CacheFaithful patterns ((name, b1) :: cache) := by
        intro kv hkv
        rcases List.mem_cons.mp hkv with h1 | h1
        · subst h1
          exact hm
        · exact hc kv h1
      refine ⟨rfl, hfaith, ?_⟩
      unfold bnEval
      rw [show cacheLookup ((name, b1) :: cache) name = some b1 by simp [cacheLookup]]

/-- C9 witness: a first evaluation on an empty cache for name `foo.x` under
the spec pattern `foo*`, and the repeated evaluation returning the cached
verdict. -/
theorem byNamespaces_cache_coherent_witness :
    computeMatch ["foo*"] "foo.x" = some true ∧
    CacheFaithful ["foo*"] [("foo.x", true)] ∧
    bnEval ["foo*"] [("foo.x", true)] "foo.x" = some (true, [("foo.x", true)]) :=
  byNamespaces_cache_coherent ["foo*"] [] "foo.x" true [("foo.x", true)]
    (by intro kv hkv; cases hkv) rfl

/-! ### Claim C10 -/

/-- C10: with a nonempty spec all of whose comma-separated patterns are
nonempty, the compiled predicate never panics; and when the compiled
predicate is the general closure and the pattern list contains an empty
pattern, the first evaluation for any not-yet-cached logger name panics on
the unguarded `pattern[0]`. -/
theorem byNamespaces_totality_and_panic (input : String) :
    ((input ≠ "" ∧ ∀ p ∈ goSplit input ',', p ≠ "") →
      ∀ e flds, evalF (ByNamespaces input) e flds ≠ none) ∧
    (∀ patterns, ByNamespaces input = Filter.byNS patterns → "" ∈ patterns →
      ∀ cache name, cacheLookup cache name = none →
        bnEval patterns cache name = none) := by
  constructor
  · rintro ⟨hne, hpat⟩ e flds
    unfold ByNamespaces
    rw [if_neg hne]
    simp only []
    by_cases hf : ((fastFlags (goSplit input ',')).1 && !(fastFlags (goSplit input ',')).2) = true
    · rw [if_pos hf]
      simp [evalF]
    · rw [if_neg hf]
      simp only [evalF]
      exact computeMatch_total (goSplit input ',') e.loggerName hpat
  · intro patterns _ hmem cache name hl
    unfold bnEval
    rw [hl, computeMatch, computeMatchGo_empty_mem name patterns false false hmem]

/-- C10 witness: the spec `"foo"` compiles to a total predicate, while the
spec `"foo,"` (trailing comma) compiles to the general closure and panics
on the first evaluation of the uncached name `bar`. -/
theorem byNamespaces_totality_and_panic_witness :
    evalF (ByNamespaces "foo") (mkEntry .debugLevel "bar") [] ≠ none ∧
    bnEval ["foo", ""] [] "bar" = none :=
  ⟨(byNamespaces_totality_and_panic "foo").1 ⟨by decide, by decide⟩ _ _,
   (byNamespaces_totality_and_panic "foo,").2 ["foo", ""] rfl (by decide) [] "bar" rfl⟩

/-! ### Claims C4, C5, C7, C8 -/

/-- Unfold one step of `Any`'s loop: a nil head is skipped without being
called, any other head is called and can short-circuit to true. -/
theorem evalAny_cons (f : Filter) (fs : FList) (e : Entry) (flds : List Field) :
    evalAny (.cons f fs) e flds =
      if f.isNil then evalAny fs e flds
      else
        match evalF f e flds with
        | none => none
        | some true => some true
        | some false => evalAny fs e flds := by
  cases f <;> rfl

/-- Unfold one step of `All`'s loop: a nil head is skipped, a false result
short-circuits, a true result sets `atLeastOneSuccessful`. -/
theorem evalAll_cons (f : Filter) (fs : FList) (e : Entry) (flds : List Field) (acc : Bool) :
    evalAll (.cons f fs) e flds acc =
      if f.isNil then evalAll fs e flds acc
      else
        match evalF f e flds with
        | none => none
        | some false => some false
        | some true => evalAll fs e flds true := by
  cases f <;> rfl

/-- `Any`'s loop returns true exactly when some non-nil member returns
true, provided no consulted member panics. -/
theorem evalAny_spec (e : Entry) (flds : List Field) :
    ∀ fs : FList, (∀ f ∈ fs.toList, f.isNil = false → evalF f e flds ≠ none) →
      (evalAny fs e flds = some true ↔
        ∃ f ∈ fs.toList, f.isNil = false ∧ evalF f e flds = some true)
  | .nil, _ => by
    simp [evalAny, FList.toList]
  | .cons f fs, h => by
    have hrest : ∀ g ∈ fs.toList, g.isNil = false → evalF g e flds ≠ none :=
      fun g hg => h g (List.mem_cons_of_mem _ hg)
    have ih := evalAny_spec e flds fs hrest
    rw [evalAny_cons]
    by_cases hn : f.isNil = true
    · rw [if_pos hn, ih]
      constructor
      · rintro ⟨g, hg, hgn, hgt⟩
        exact ⟨g, List.mem_cons_of_mem _ hg, hgn, hgt⟩
      · rintro ⟨g, hg, hgn, hgt⟩
        rcases List.mem_cons.mp hg with h1 | h1
        · subst h1
          rw [hn] at hgn
          cases hgn
        · exact ⟨g, h1, hgn, hgt⟩
    · have hnf : f.isNil = false := by
        cases hq : f.isNil
        · rfl
        · exact absurd hq hn
      rw [if_neg hn]
      cases he : evalF f e flds with
      | none => exact absurd he (h f (List.mem_cons_self f _) hnf)
      | some b =>
        cases b with
        | true =>
          simp only []
          constructor
          · intro _
            exact ⟨f, List.mem_cons_self f _, hnf, he⟩
          · intro _
            trivial
        | false =>
          simp only []
          rw [ih]
          constructor
          · rintro ⟨g, hg, hgn, hgt⟩
            exact ⟨g, List.mem_cons_of_mem _ hg, hgn, hgt⟩
          · rintro ⟨g, hg, hgn, hgt⟩
            rcases List.mem_cons.mp hg with h1 | h1
            · subst h1
              rw [he] at hgt
              exact Bool.noConfusion (Option.some.inj hgt)
            · exact ⟨g, h1, hgn, hgt⟩

/-- `All`'s loop (with its `atLeastOneSuccessful` accumulator) returns true
exactly when every non-nil member returns true and the accumulator was
already set or some non-nil member exists, provided no consulted member
panics. -/
theorem evalAll_spec (e : Entry) (flds : List Field) :
    ∀ (fs : FList) (acc : Bool),
      (∀ f ∈ fs.toList, f.isNil = false → evalF f e flds ≠ none) →
      (evalAll fs e flds acc = some true ↔
        ((∀ f ∈ fs.toList, f.isNil = false → evalF f e flds = some true) ∧
          (acc = true ∨ ∃ f ∈ fs.toList, f.isNil = false)))
  | .nil, acc, _ => by
    cases acc <;> simp [evalAll, FList.toList]
  | .cons f fs, acc, h => by
    have hrest : ∀ g ∈ fs.toList, g.isNil = false → evalF g e flds ≠ none :=
      fun g hg => h g (List.mem_cons_of_mem _ hg)
    rw [evalAll_cons]
    by_cases hn : f.isNil = true
    · rw [if_pos hn, evalAll_spec e flds fs acc hrest]
      constructor
      · rintro ⟨h1, h2⟩
        refine ⟨?_, ?_⟩
        · intro g hg hgn
          rcases List.mem_cons.mp hg with he | he
          · subst he
            rw [hn] at hgn
            cases hgn
          · exact h1 g he hgn
        · rcases h2 with h2 | ⟨g, hg, hgn⟩
          · exact Or.inl h2
          · exact Or.inr ⟨g, List.mem_cons_of_mem _ hg, hgn⟩
      · rintro ⟨h1, h2⟩
        refine ⟨fun g hg hgn => h1 g (List.mem_cons_of_mem _ hg) hgn, ?_⟩
        rcases h2 with h2 | ⟨g, hg, hgn⟩
        · exact Or.inl h2
        · rcases List.mem_cons.mp hg with he | he
          · subst he
            rw [hn] at hgn
            cases hgn
          · exact Or.inr ⟨g, he, hgn⟩
    · have hnf : f.isNil = false := by
        cases hq : f.isNil
        · rfl
        · exact absurd hq hn
      rw [if_neg hn]
      cases he : evalF f e flds with
      | none => exact absurd he (h f (List.mem_cons_self f _) hnf)
      | some b =>
        cases b with
        | false =>
          simp only []
          constructor
          · intro hfalse
            exact Bool.noConfusion (Option.some.inj hfalse)
          · rintro ⟨h1, -⟩
            have := h1 f (List.mem_cons_self f _) hnf
            rw [he] at this
            exact Bool.noConfusion (Option.some.inj this)
        | true =>
          simp only []
          rw [evalAll_spec e flds fs true hrest]
          constructor
          · rintro ⟨h1, -⟩
            refine ⟨?_, Or.inr ⟨f, List.mem_cons_self f _, hnf⟩⟩
            intro g hg hgn
            rcases List.mem_cons.mp hg with h2 | h2
            · subst h2
              exact he
            · exact h1 g h2 hgn
          · rintro ⟨h1, -⟩
            exact ⟨fun g hg hgn => h1 g (List.mem_cons_of_mem _ hg) hgn, Or.inl rfl⟩

/-- A filter whose `isNil` test is true is the nil filter. -/
theorem isNil_eq_nilF (f : Filter) (h : f.isNil = true) : f = .nilF := by
  cases f
  case nilF => rfl
  all_goals exact Bool.noConfusion h

/-- On an all-nil argument list, `All`'s loop never sets
`atLeastOneSuccessful`. -/
theorem evalAll_allnil (e : Entry) (flds : List Field) :
    ∀ (fs : FList) (acc : Bool), (∀ f ∈ fs.toList, f.isNil = true) →
      evalAll fs e flds acc = some acc
  | .nil, acc, _ => rfl
  | .cons f fs, acc, h => by
    have hf : f = .nilF := isNil_eq_nilF f (h f (List.mem_cons_self f _))
    subst hf
    show evalAll fs e flds acc = some acc
    exact evalAll_allnil e flds fs acc (fun g hg => h g (List.mem_cons_of_mem _ hg))

/-- C4: `Any` over a list is true iff some non-nil member is true (nil
members are skipped, not treated as false), `Any` of zero filters is false;
`All` is true iff every non-nil member is true and at least one non-nil
member is present, so `All` of zero filters and `All` of an all-nil list
are both false.  The hypothesis rules out panicking members (a Go panic
would propagate instead of producing a boolean). -/
theorem any_all_semantics (fs : FList) (e : Entry) (flds : List Field)
    (h : ∀ f ∈ fs.toList, f.isNil = false → evalF f e flds ≠ none) :
    (evalF (Any fs) e flds = some true ↔
      ∃ f ∈ fs.toList, f.isNil = false ∧ evalF f e flds = some true) ∧
    evalF (Any .nil) e flds = some false ∧
    (evalF (All fs) e flds = some true ↔
      ((∀ f ∈ fs.toList, f.isNil = false → evalF f e flds = some true) ∧
        ∃ f ∈ fs.toList, f.isNil = false)) ∧
    evalF (All .nil) e flds = some false ∧
    ((∀ f ∈ fs.toList, f.isNil = true) → evalF (All fs) e flds = some false) := by
  refine ⟨evalAny_spec e flds fs h, rfl, ?_, rfl, ?_⟩
  · have := evalAll_spec e flds fs false h
    simpa using this
  · intro hall
    exact evalAll_allnil e flds fs false hall

/-- C4 witness: `Any(nil, alwaysTrue)` admits, `All(nil, nil)` rejects. -/
theorem any_all_semantics_witness :
    evalF (Any (.cons Filter.nilF (.cons Filter.alwaysTrue .nil)))
      (mkEntry .debugLevel "x") [] = some true ∧
    evalF (All (.cons Filter.nilF (.cons Filter.nilF .nil)))
      (mkEntry .debugLevel "x") [] = some false :=
  ⟨((any_all_semantics (.cons Filter.nilF (.cons Filter.alwaysTrue .nil))
      (mkEntry .debugLevel "x") [] (by decide)).1).mpr
      ⟨Filter.alwaysTrue, by simp [FList.toList], rfl, rfl⟩,
   (any_all_semantics (.cons Filter.nilF (.cons Filter.nilF .nil))
      (mkEntry .debugLevel "x") [] (by decide)).2.2.2.2 (by decide)⟩

/-- C5: parsing the empty rule string succeeds with the nil filter, and the
filtering core built from that filter (which `NewFilteringCore` replaces by
`alwaysFalseFilter`) admits nothing: its `Write` returns a nil error for
every entry and field set without invoking the downstream core. -/
theorem parseRules_empty_always_false :
    ParseRules "" = .ok Filter.nilF ∧
    (∀ f, ParseRules "" = .ok f → ∀ next e flds,
      evalF (NewFilteringCore next f).filter e flds = some false ∧
      coreWrite (NewFilteringCore next f) e flds = some (none, false)) := by
  refine ⟨rfl, ?_⟩
  intro f hf next e flds
  have h0 : (Except.ok Filter.nilF : Except ParseErr Filter) = .ok f := hf
  have h1 : Filter.nilF = f := Except.ok.inj h0
  subst h1
  exact ⟨rfl, rfl⟩

/-- C5 witness: the core built from `ParseRules ""` drops an entry without
calling a downstream that would report an error. -/
theorem parseRules_empty_always_false_witness :
    evalF (NewFilteringCore (fun _ _ => some "boom") Filter.nilF).filter
      (mkEntry .errorLevel "any") [] = some false ∧
    coreWrite (NewFilteringCore (fun _ _ => some "boom") Filter.nilF)
      (mkEntry .errorLevel "any") [] = some (none, false) :=
  parseRules_empty_always_false.2 Filter.nilF rfl
    (fun _ _ => some "boom") (mkEntry .errorLevel "any") []

/-- C7: a rule token without `:` keeps an empty level part — all seven
levels are enabled, so the compiled clause is the bare `ByNamespaces` of
the whole token and no error is possible; a token with `:` and an empty
side is a `bad syntax` error. -/
theorem parseRules_token_split (rule : String) :
    (splitFirstColon rule.data = none → compileRule rule = .ok (ByNamespaces rule)) ∧
    (∀ l r, splitFirstColon rule.data = some (l, r) → (l = [] ∨ r = []) →
      compileRule rule = .error .badSyntax) := by
  constructor
  · intro h
    simp only [compileRule, h]
    rfl
  · intro l r h hlr
    simp only [compileRule, h]
    rcases hlr with h1 | h1
    · subst h1
      rfl
    · subst h1
      rw [if_pos (by simp)]

/-- C7 witness: `some.ns*` (no colon) compiles to its namespace filter;
`:x` and `x:` are syntax errors. -/
theorem parseRules_token_split_witness :
    compileRule "some.ns*" = .ok (ByNamespaces "some.ns*") ∧
    compileRule ":x" = .error .badSyntax ∧
    compileRule "x:" = .error .badSyntax :=
  ⟨(parseRules_token_split "some.ns*").1 rfl,
   (parseRules_token_split ":x").2 [] ['x'] rfl (Or.inl rfl),
   (parseRules_token_split "x:").2 ['x'] [] rfl (Or.inr rfl)⟩

/-- C8: `filteringCore.Write` evaluates the filter with the fields present;
a false verdict returns success immediately with the downstream core not
invoked, a true verdict returns the downstream `Write` result verbatim. -/
theorem filteringCore_write_delegation (next : Entry → List Field → Option String)
    (filter : Filter) (e : Entry) (flds : List Field) (b : Bool)
    (hb : evalF (NewFilteringCore next filter).filter e flds = some b) :
    coreWrite (NewFilteringCore next filter) e flds =
      some (if b then next e flds else none, b) := by
  unfold coreWrite
  rw [hb]
  cases b
  · rfl
  · rfl

/-- C8 witness: a downstream error string is passed through untouched on a
true verdict, and the downstream is not reached on a false verdict. -/
theorem filteringCore_write_delegation_witness :
    coreWrite (NewFilteringCore (fun _ _ => some "disk full") Filter.alwaysTrue)
      (mkEntry .infoLevel "a") [] = some (some "disk full", true) ∧
    coreWrite (NewFilteringCore (fun _ _ => some "disk full") Filter.alwaysFalse)
      (mkEntry .infoLevel "a") [] = some (none, false) :=
  ⟨filteringCore_write_delegation (fun _ _ => some "disk full") Filter.alwaysTrue
      (mkEntry .infoLevel "a") [] true rfl,
   filteringCore_write_delegation (fun _ _ => some "disk full") Filter.alwaysFalse
      (mkEntry .infoLevel "a") [] false rfl⟩

/-! ### Claim C6 -/

/-- Whether a level-keyword switch arm applies never depends on the level
set accumulated so far, so failure of the switch is failure of the keyword
itself. -/
theorem applyLevelKeyword_none_iff (s : Level → Bool) (tok : String) :
    applyLevelKeyword s tok = none ↔ recognizedKeyword tok = false := by
  unfold recognizedKeyword applyLevelKeyword
  cases keywordLevels (goToLower tok) <;> simp

/-- The level-token loop of a rule fails exactly when some token in the
list is unrecognized. -/
theorem parseLevels_none_iff :
    ∀ (toks : List String) (s : Level → Bool),
      parseLevels s toks = none ↔ ∃ t ∈ toks, recognizedKeyword t = false := by
  intro toks
  induction toks with
  | nil => intro s; simp [parseLevels]
  | cons t rest ih =>
    intro s
    simp only [parseLevels]
    cases ha : applyLevelKeyword s t with
    | none =>
      constructor
      · intro _
        exact ⟨t, List.mem_cons_self t rest, (applyLevelKeyword_none_iff s t).mp ha⟩
      · intro _
        rfl
    | some s2 =>
      rw [ih s2]
      constructor
      · rintro ⟨u, hu, hur⟩
        exact ⟨u, List.mem_cons_of_mem _ hu, hur⟩
      · rintro ⟨u, hu, hur⟩
        rcases List.mem_cons.mp hu with h1 | h1
        · subst h1
          rw [(applyLevelKeyword_none_iff s u).mpr hur] at ha
          exact Option.noConfusion ha
        · exact ⟨u, h1, hur⟩

/-- The text left of the first `:` of a rule token (empty when the token
has no `:`): this is exactly the payload of an unsupported-keyword error. -/
def leftSegment (rule : String) : String :=
  match splitFirstColon rule.data with
  | none => ""
  | some (l, _) => String.mk l

/-- Syntactic well-formedness of one rule token: either no `:`, or both
sides of the first `:` nonempty with every level keyword recognized. -/
def compileOk (rule : String) : Bool :=
  match splitFirstColon rule.data with
  | none => true
  | some (l, r) =>
    !l.isEmpty && !r.isEmpty &&
      (goSplit (String.mk l) ',').all (fun tok => recognizedKeyword tok)

/-- The empty level segment enables all seven levels, so the clause is the
bare namespace filter. -/
theorem compileParts_empty_left (right : String) :
    compileParts "" right = .ok (ByNamespaces right) := rfl

theorem compileParts_of_parseLevels_none (left right : String)
    (hp : parseLevels (fun _ => false) (goSplit left ',') = none) :
    compileParts left right = .error (.unsupportedKeyword left) := by
  unfold compileParts
  rw [hp]

theorem compileParts_of_parseLevels_some (left right : String) (s2 : Level → Bool)
    (hp : parseLevels (fun _ => false) (goSplit left ',') = some s2) :
    compileParts left right =
      (if levelSetSize s2 = 7 then Except.ok (ByNamespaces right)
       else .ok (All (.cons (buildLevelFilter s2) (.cons (ByNamespaces right) .nil)))) := by
  unfold compileParts
  rw [hp]

theorem compileRule_of_no_colon (rule : String)
    (hsp : splitFirstColon rule.data = none) :
    compileRule rule = compileParts "" rule := by
  simp only [compileRule, hsp]

theorem compileRule_of_colon (rule : String) (l r : List Char)
    (hsp : splitFirstColon rule.data = some (l, r)) :
    compileRule rule =
      (if l.isEmpty || r.isEmpty then Except.error ParseErr.badSyntax
       else compileParts (String.mk l) (String.mk r)) := by
  simp only [compileRule, hsp]

/-- An unsupported-keyword error from one rule token carries the whole left
segment of that token, and some comma-separated keyword in that segment is
unrecognized. -/
theorem compileRule_unsupported (rule s : String)
    (h : compileRule rule = .error (.unsupportedKeyword s)) :
    leftSegment rule = s ∧ ∃ tok ∈ goSplit s ',', recognizedKeyword tok = false := by
  cases hsp : splitFirstColon rule.data with
  | none =>
    rw [compileRule_of_no_colon rule hsp, compileParts_empty_left rule] at h
    exact Except.noConfusion h
  | some lr =>
    obtain ⟨l, r⟩ := lr
    rw [compileRule_of_colon rule l r hsp] at h
    by_cases hlr : (l.isEmpty || r.isEmpty) = true
    · rw [if_pos hlr] at h
      exact ParseErr.noConfusion (Except.error.inj h)
    · rw [if_neg hlr] at h
      cases hp : parseLevels (fun _ => false) (goSplit (String.mk l) ',') with
      | some s2 =>
        rw [compileParts_of_parseLevels_some (String.mk l) (String.mk r) s2 hp] at h
        by_cases h7 : levelSetSize s2 = 7
        · rw [if_pos h7] at h
          exact Except.noConfusion h
        · rw [if_neg h7] at h
          exact Except.noConfusion h
      | none =>
        rw [compileParts_of_parseLevels_none (String.mk l) (String.mk r) hp] at h
        have hs : String.mk l = s := by
          injection Except.error.inj h
        constructor
        · unfold leftSegment
          rw [hsp]
          exact hs
        · rw [← hs]
          exact (parseLevels_none_iff (goSplit (String.mk l) ',') (fun _ => false)).mp hp

/-- A syntactically well-formed rule token compiles without error. -/
theorem compileRule_ok (rule : String) (h : compileOk rule = true) :
    ∃ f, compileRule rule = .ok f := by
  unfold compileOk at h
  cases hsp : splitFirstColon rule.data with
  | none =>
    exact ⟨ByNamespaces rule, by rw [compileRule_of_no_colon rule hsp]; exact rfl⟩
  | some lr =>
    obtain ⟨l, r⟩ := lr
    rw [hsp] at h
    simp only [Bool.and_eq_true, Bool.not_eq_true'] at h
    obtain ⟨⟨hl, hr⟩, hall⟩ := h
    rw [compileRule_of_colon rule l r hsp, hl, hr]
    rw [show (if (false || false) = true then Except.error ParseErr.badSyntax
        else compileParts (String.mk l) (String.mk r)) =
        compileParts (String.mk l) (String.mk r) from rfl]
    cases hp : parseLevels (fun _ => false) (goSplit (String.mk l) ',') with
    | none =>
      obtain ⟨tok, htok, hrec⟩ :=
        (parseLevels_none_iff (goSplit (String.mk l) ',') (fun _ => false)).mp hp
      have h2 := List.all_eq_true.mp hall tok htok
      rw [hrec] at h2
      exact Bool.noConfusion h2
    | some s2 =>
      rw [compileParts_of_parseLevels_some (String.mk l) (String.mk r) s2 hp]
      by_cases h7 : levelSetSize s2 = 7
      · exact ⟨ByNamespaces (String.mk r), by rw [if_pos h7]⟩
      · exact ⟨All (.cons (buildLevelFilter s2) (.cons (ByNamespaces (String.mk r)) .nil)),
          by rw [if_neg h7]⟩

/-- Every group produced by `splitByPred` is free of separator characters. -/
theorem splitByPred_members (p : Char → Bool) :
    ∀ (xs : List Char) (g : List Char), g ∈ splitByPred p xs → ∀ c ∈ g, p c = false := by
  intro xs
  induction xs with
  | nil =>
    intro g hg c hc
    simp only [splitByPred, List.mem_singleton] at hg
    subst hg
    cases hc
  | cons x rest ih =>
    intro g hg c hc
    simp only [splitByPred] at hg
    by_cases hx : p x = true
    · rw [if_pos hx] at hg
      rcases List.mem_cons.mp hg with h1 | h1
      · subst h1
        cases hc
      · exact ih g h1 c hc
    · rw [if_neg hx] at hg
      cases hsp : splitByPred p rest with
      | nil =>
        rw [hsp] at hg
        rcases List.mem_singleton.mp hg with h1
        subst h1
        rcases List.mem_cons.mp hc with h2 | h2
        · subst h2
          cases hpc : p c
          · rfl
          · exact absurd hpc hx
        · cases h2
      | cons g0 gs =>
        rw [hsp] at hg
        rcases List.mem_cons.mp hg with h1 | h1
        · subst h1
          rcases List.mem_cons.mp hc with h2 | h2
          · subst h2
            cases hpc : p c
            · rfl
            · exact absurd hpc hx
          · exact ih g0 (hsp ▸ List.mem_cons_self g0 gs) c h2
        · exact ih g (hsp ▸ List.mem_cons_of_mem g0 h1) c hc

/-- Every token produced by `goFields` is nonempty and contains no
whitespace. -/
theorem goFields_members (s : String) :
    ∀ t ∈ goFields s, t ≠ "" ∧ ∀ c ∈ t.data, goIsSpace c = false := by
  intro t ht
  unfold goFields at ht
  obtain ⟨ht1, ht2⟩ := List.mem_filter.mp ht
  refine ⟨by simpa using ht2, ?_⟩
  obtain ⟨g, hg, hgt⟩ := List.mem_map.mp ht1
  intro c hc
  have hdata : t.data = g := by rw [← hgt]
  exact splitByPred_members goIsSpace s.data g hg c (hdata ▸ hc)

theorem dropWhile_of_all_false (p : Char → Bool) (l : List Char)
    (h : ∀ c ∈ l, p c = false) : l.dropWhile p = l := by
  cases l with
  | nil => rfl
  | cons c r =>
    rw [List.dropWhile_cons, h c (List.mem_cons_self c r)]
    simp

theorem string_mk_data (s : String) : String.mk s.data = s := by
  cases s
  rfl

/-- Trimming is the identity on whitespace-free strings (all `goFields`
tokens). -/
theorem goTrimSpace_id (t : String) (h : ∀ c ∈ t.data, goIsSpace c = false) :
    goTrimSpace t = t := by
  unfold goTrimSpace
  rw [dropWhile_of_all_false goIsSpace t.data h]
  rw [dropWhile_of_all_false goIsSpace t.data.reverse
    (fun c hc => h c (List.mem_reverse.mp hc))]
  rw [List.reverse_reverse]

/-- An error escaping the rule loop of `ParseRules` is an error of some
rule token in the list. -/
theorem parseRulesGo_error_member :
    ∀ (rules : List String) (top : Filter) (err : ParseErr),
      parseRulesGo rules top = .error err →
      ∃ rule ∈ rules, compileRule (goTrimSpace rule) = .error err := by
  intro rules
  induction rules with
  | nil =>
    intro top err h
    exact Except.noConfusion h
  | cons rule rest ih =>
    intro top err h
    simp only [parseRulesGo] at h
    by_cases he : goTrimSpace rule = ""
    · rw [if_pos he] at h
      obtain ⟨r2, hr2, hc⟩ := ih top err h
      exact ⟨r2, List.mem_cons_of_mem _ hr2, hc⟩
    · rw [if_neg he] at h
      cases hc : compileRule (goTrimSpace rule) with
      | error e2 =>
        rw [hc] at h
        have : e2 = err := Except.error.inj h
        subst this
        exact ⟨rule, List.mem_cons_self rule rest, hc⟩
      | ok clause =>
        rw [hc] at h
        obtain ⟨r2, hr2, hcr⟩ := ih _ err h
        exact ⟨r2, List.mem_cons_of_mem _ hr2, hcr⟩

/-- If every (trimmed, nonempty) rule token compiles, the rule loop
succeeds. -/
theorem parseRulesGo_ok :
    ∀ (rules : List String) (top : Filter),
      (∀ rule ∈ rules, goTrimSpace rule ≠ "" → ∃ f, compileRule (goTrimSpace rule) = .ok f) →
      ∃ f, parseRulesGo rules top = .ok f := by
  intro rules
  induction rules with
  | nil =>
    intro top _
    exact ⟨top, rfl⟩
  | cons rule rest ih =>
    intro top h
    simp only [parseRulesGo]
    by_cases he : goTrimSpace rule = ""
    · rw [if_pos he]
      exact ih top (fun r2 hr2 => h r2 (List.mem_cons_of_mem _ hr2))
    · rw [if_neg he]
      obtain ⟨clause, hclause⟩ := h rule (List.mem_cons_self rule rest) he
      rw [hclause]
      exact ih _ (fun r2 hr2 => h r2 (List.mem_cons_of_mem _ hr2))

/-- C6 counterexample: the claim says the unsupported-keyword error carries
the offending token verbatim, but for the rule `info,bogus:x` the code
reports the whole level segment `info,bogus` (the `left` variable), not the
single unrecognized token `bogus`. -/
theorem parseRules_unsupported_keyword_cex :
    ParseRules "info,bogus:x" = .error (.unsupportedKeyword "info,bogus") ∧
    recognizedKeyword "info" = true ∧ recognizedKeyword "bogus" = false :=
  ⟨rfl, rfl, rfl⟩

/-- C6 (amended): an unsupported-keyword error from `ParseRules` carries,
verbatim, the whole level segment (text left of the first `:`) of some rule
token, a segment containing at least one unrecognized keyword — for a
single-keyword segment such as `invalid:*` that is the offending token
itself; and parsing succeeds whenever every rule token either has no `:`
or has nonempty sides around its first `:` with all level keywords
recognized. -/
theorem parseRules_unsupported_keyword (input : String) :
    (∀ s, ParseRules input = .error (.unsupportedKeyword s) →
      ∃ rule ∈ goFields input, leftSegment rule = s ∧
        ∃ tok ∈ goSplit s ',', recognizedKeyword tok = false) ∧
    ((∀ rule ∈ goFields input, compileOk rule = true) →
      ∃ f, ParseRules input = .ok f) := by
  constructor
  · intro s h
    obtain ⟨rule, hrule, hc⟩ :=
      parseRulesGo_error_member (goFields input) .nilF (.unsupportedKeyword s) h
    obtain ⟨-, hnospace⟩ := goFields_members input rule hrule
    rw [goTrimSpace_id rule hnospace] at hc
    obtain ⟨hseg, htok⟩ := compileRule_unsupported rule s hc
    exact ⟨rule, hrule, hseg, htok⟩
  · intro h
    apply parseRulesGo_ok
    intro rule hrule _
    obtain ⟨-, hnospace⟩ := goFields_members input rule hrule
    rw [goTrimSpace_id rule hnospace]
    exact compileRule_ok rule (h rule hrule)

/-- C6 witness: `invalid:*` fails with the token `invalid` as payload (a
one-keyword segment, where segment and token coincide), and a rule string
of recognized keywords parses. -/
theorem parseRules_unsupported_keyword_witness :
    (∃ rule ∈ goFields "invalid:*", leftSegment rule = "invalid" ∧
      ∃ tok ∈ goSplit "invalid" ',', recognizedKeyword tok = false) ∧
    ∃ f, ParseRules "debug:mypkg warn+:*" = .ok f :=
  ⟨(parseRules_unsupported_keyword "invalid:*").1 "invalid" rfl,
   (parseRules_unsupported_keyword "debug:mypkg warn+:*").2 (by decide)⟩

/-! ### Claim C2 -/

theorem string_data_append (a b : String) : (a ++ b).data = a.data ++ b.data := by
  cases a
  cases b
  rfl

/-- Whitespace-free text concatenated in front of a split extends the first
group of the split. -/
theorem splitByPred_nosep_append (p : Char → Bool) :
    ∀ (xs ys g : List Char) (gs : List (List Char)),
      (∀ c ∈ xs, p c = false) → splitByPred p ys = g :: gs →
      splitByPred p (xs ++ ys) = (xs ++ g) :: gs := by
  intro xs
  induction xs with
  | nil =>
    intro ys g gs _ h
    simpa using h
  | cons c xs ih =>
    intro ys g gs hall h
    have hc : p c = false := hall c (List.mem_cons_self c xs)
    show splitByPred p (c :: (xs ++ ys)) = ((c :: xs) ++ g) :: gs
    simp only [splitByPred]
    rw [if_neg (by simp [hc])]
    rw [ih ys g gs (fun d hd => hall d (List.mem_cons_of_mem c hd)) h]
    simp

/-- A single whitespace-free nonempty token is one field. -/
theorem goFields_one_token (A : String) (hA : A ≠ "")
    (hA2 : ∀ c ∈ A.data, goIsSpace c = false) : goFields A = [A] := by
  unfold goFields
  have h1 : splitByPred goIsSpace A.data = [A.data] := by
    have h2 := splitByPred_nosep_append goIsSpace A.data [] [] [] hA2 rfl
    simpa using h2
  rw [h1]
  simp [string_mk_data, hA]

/-- Two whitespace-free nonempty tokens joined by one space are two
fields. -/
theorem goFields_two_tokens (A B : String) (hA : A ≠ "")
    (hA2 : ∀ c ∈ A.data, goIsSpace c = false) (hB : B ≠ "")
    (hB2 : ∀ c ∈ B.data, goIsSpace c = false) :
    goFields (A ++ " " ++ B) = [A, B] := by
  unfold goFields
  have hdata : (A ++ " " ++ B).data = A.data ++ (' ' :: B.data) := by
    rw [string_data_append, string_data_append]
    simp [show (" " : String).data = [' '] from rfl]
  rw [hdata]
  have hB1 : splitByPred goIsSpace B.data = [B.data] := by
    have h2 := splitByPred_nosep_append goIsSpace B.data [] [] [] hB2 rfl
    simpa using h2
  have hsp : splitByPred goIsSpace (' ' :: B.data) = [] :: [B.data] := by
    simp only [splitByPred]
    rw [if_pos (by decide), hB1]
  have h3 := splitByPred_nosep_append goIsSpace A.data (' ' :: B.data) [] [B.data] hA2 hsp
  rw [h3]
  simp [string_mk_data, hA, hB]

/-- One successful step of the rule loop. -/
theorem parseRulesGo_cons_ok (rule : String) (rules : List String) (top clause : Filter)
    (hne : goTrimSpace rule ≠ "")
    (hc : compileRule (goTrimSpace rule) = .ok clause) :
    parseRulesGo (rule :: rules) top =
      parseRulesGo rules (Any (.cons top (.cons clause .nil))) := by
  simp only [parseRulesGo]
  rw [if_neg hne, hc]

/-- The filter tree produced for two rule tokens. -/
theorem parseRules_two_tokens (A B : String) (cA cB : Filter)
    (hA : A ≠ "") (hA2 : ∀ c ∈ A.data, goIsSpace c = false)
    (hB : B ≠ "") (hB2 : ∀ c ∈ B.data, goIsSpace c = false)
    (hcA : compileRule A = .ok cA) (hcB : compileRule B = .ok cB) :
    ParseRules (A ++ " " ++ B) =
      .ok (Any (.cons (Any (.cons .nilF (.cons cA .nil))) (.cons cB .nil))) := by
  unfold ParseRules
  rw [goFields_two_tokens A B hA hA2 hB hB2]
  rw [parseRulesGo_cons_ok A [B] .nilF cA (by rw [goTrimSpace_id A hA2]; exact hA)
    (by rw [goTrimSpace_id A hA2]; exact hcA)]
  rw [parseRulesGo_cons_ok B [] _ cB (by rw [goTrimSpace_id B hB2]; exact hB)
    (by rw [goTrimSpace_id B hB2]; exact hcB)]
  rfl

/-- The filter tree produced for a single rule token. -/
theorem parseRules_one_token (A : String) (cA : Filter) (hA : A ≠ "")
    (hA2 : ∀ c ∈ A.data, goIsSpace c = false) (hcA : compileRule A = .ok cA) :
    ParseRules A = .ok (Any (.cons .nilF (.cons cA .nil))) := by
  unfold ParseRules
  rw [goFields_one_token A hA hA2]
  rw [parseRulesGo_cons_ok A [] .nilF cA (by rw [goTrimSpace_id A hA2]; exact hA)
    (by rw [goTrimSpace_id A hA2]; exact hcA)]
  rfl

theorem byNamespaces_ne_nil (input : String) : (ByNamespaces input).isNil = false := by
  unfold ByNamespaces
  by_cases h : input = ""
  · rw [if_pos h]
    rfl
  · rw [if_neg h]
    simp only []
    by_cases hf : ((fastFlags (goSplit input ',')).1 && !(fastFlags (goSplit input ',')).2) = true
    · rw [if_pos hf]
      rfl
    · rw [if_neg hf]
      rfl

/-- No compiled rule clause is the nil filter. -/
theorem compileRule_ne_nil (rule : String) (f : Filter)
    (h : compileRule rule = .ok f) : f.isNil = false := by
  cases hsp : splitFirstColon rule.data with
  | none =>
    rw [compileRule_of_no_colon rule hsp, compileParts_empty_left rule] at h
    rw [← Except.ok.inj h]
    exact byNamespaces_ne_nil rule
  | some lr =>
    obtain ⟨l, r⟩ := lr
    rw [compileRule_of_colon rule l r hsp] at h
    by_cases hlr : (l.isEmpty || r.isEmpty) = true
    · rw [if_pos hlr] at h
      exact Except.noConfusion h
    · rw [if_neg hlr] at h
      cases hp : parseLevels (fun _ => false) (goSplit (String.mk l) ',') with
      | none =>
        rw [compileParts_of_parseLevels_none _ _ hp] at h
        exact Except.noConfusion h
      | some s2 =>
        rw [compileParts_of_parseLevels_some _ _ s2 hp] at h
        by_cases h7 : levelSetSize s2 = 7
        · rw [if_pos h7] at h
          rw [← Except.ok.inj h]
          exact byNamespaces_ne_nil (String.mk r)
        · rw [if_neg h7] at h
          rw [← Except.ok.inj h]
          rfl

/-- Evaluation of the one-clause accumulator `Any(nil, c)`. -/
theorem evalF_singleton_clause (c : Filter) (e : Entry) (flds : List Field) (a : Bool)
    (hnn : c.isNil = false) (ha : evalF c e flds = some a) :
    evalF (Any (.cons .nilF (.cons c .nil))) e flds = some a := by
  show evalAny (.cons .nilF (.cons c .nil)) e flds = some a
  rw [show evalAny (.cons .nilF (.cons c .nil)) e flds =
      evalAny (.cons c .nil) e flds from rfl]
  rw [evalAny_cons, if_neg (by rw [hnn]; decide), ha]
  cases a
  · rfl
  · rfl

/-- Evaluation of the two-clause accumulator `Any(Any(nil, cA), cB)`. -/
theorem evalF_pair_clause (cA cB : Filter) (e : Entry) (flds : List Field) (a b : Bool)
    (hnA : cA.isNil = false) (hnB : cB.isNil = false)
    (ha : evalF cA e flds = some a) (hb : evalF cB e flds = some b) :
    evalF (Any (.cons (Any (.cons .nilF (.cons cA .nil))) (.cons cB .nil))) e flds =
      some (a || b) := by
  have h1 := evalF_singleton_clause cA e flds a hnA ha
  show evalAny _ _ _ = _
  rw [evalAny_cons, if_neg (fun hx => Bool.noConfusion hx)]
  rw [show evalF (Any (.cons .nilF (.cons cA .nil))) e flds = some a from h1]
  cases a
  · show evalAny (.cons cB .nil) e flds = some (false || b)
    rw [Bool.false_or]
    rw [evalAny_cons, if_neg (by rw [hnB]; decide), hb]
    cases b
    · rfl
    · rfl
  · show some true = some (true || b)
    rw [Bool.true_or]

/-- C2 counterexample: both `foo,` and `*` are accepted rule tokens, but
the predicate from `"foo, *"` panics (the `foo,` clause is evaluated first
and hits the empty-pattern `pattern[0]` panic), while the predicate from
`"* foo,"` returns true on the same entry (the `*` clause short-circuits
`Any` before the panicking clause runs) — so rule order is observable. -/
theorem parseRules_token_order_cex :
    (ParseRules "foo, *").map (fun f => evalF f (mkEntry .debugLevel "zzz") []) =
      .ok none ∧
    (ParseRules "* foo,").map (fun f => evalF f (mkEntry .debugLevel "zzz") []) =
      .ok (some true) :=
  ⟨rfl, rfl⟩

/-- C2 (amended): for any two whitespace-free rule tokens that compile to
clauses whose predicates never panic, parsing `"A B"` and `"B A"` yields
predicates that agree on every entry and field set; and parsing `"A A"`
agrees everywhere with parsing `"A"` (a repeated identical rule is
redundant, not additive). -/
theorem parseRules_token_order (A B : String) (cA cB : Filter)
    (hA : A ≠ "") (hA2 : ∀ c ∈ A.data, goIsSpace c = false)
    (hB : B ≠ "") (hB2 : ∀ c ∈ B.data, goIsSpace c = false)
    (hcA : compileRule A = .ok cA) (hcB : compileRule B = .ok cB)
    (htA : ∀ e flds, evalF cA e flds ≠ none)
    (htB : ∀ e flds, evalF cB e flds ≠ none) :
    (∀ (e : Entry) (flds : List Field),
      (ParseRules (A ++ " " ++ B)).map (fun f => evalF f e flds) =
        (ParseRules (B ++ " " ++ A)).map (fun f => evalF f e flds)) ∧
    (∀ (e : Entry) (flds : List Field),
      (ParseRules (A ++ " " ++ A)).map (fun f => evalF f e flds) =
        (ParseRules A).map (fun f => evalF f e flds)) := by
  have hnA : cA.isNil = false := compileRule_ne_nil A cA hcA
  have hnB : cB.isNil = false := compileRule_ne_nil B cB hcB
  constructor
  · intro e flds
    rw [parseRules_two_tokens A B cA cB hA hA2 hB hB2 hcA hcB,
        parseRules_two_tokens B A cB cA hB hB2 hA hA2 hcB hcA]
    cases hea : evalF cA e flds with
    | none => exact absurd hea (htA e flds)
    | some a =>
      cases heb : evalF cB e flds with
      | none => exact absurd heb (htB e flds)
      | some b =>
        simp only [Except.map]
        rw [evalF_pair_clause cA cB e flds a b hnA hnB hea heb,
            evalF_pair_clause cB cA e flds b a hnB hnA heb hea,
            Bool.or_comm]
  · intro e flds
    rw [parseRules_two_tokens A A cA cA hA hA2 hA hA2 hcA hcA,
        parseRules_one_token A cA hA hA2 hcA]
    cases hea : evalF cA e flds with
    | none => exact absurd hea (htA e flds)
    | some a =>
      simp only [Except.map]
      rw [evalF_pair_clause cA cA e flds a a hnA hnA hea hea,
          evalF_singleton_clause cA e flds a hnA hea, Bool.or_self]

/-- C2 witness: the tokens `*` and `debug` (the latter a namespace token)
commute, and doubling `*` is redundant. -/
theorem parseRules_token_order_witness :
    (ParseRules ("*" ++ " " ++ "debug")).map
        (fun f => evalF f (mkEntry .debugLevel "zzz") []) =
      (ParseRules ("debug" ++ " " ++ "*")).map
        (fun f => evalF f (mkEntry .debugLevel "zzz") []) ∧
    (ParseRules ("*" ++ " " ++ "*")).map
        (fun f => evalF f (mkEntry .debugLevel "zzz") []) =
      (ParseRules "*").map (fun f => evalF f (mkEntry .debugLevel "zzz") []) :=
  ⟨(parseRules_token_order "*" "debug" .alwaysTrue (.byNS ["debug"])
      (by decide) (by decide) (by decide) (by decide) rfl rfl
      (fun e flds h => Option.noConfusion h)
      (fun e flds => computeMatch_total ["debug"] e.loggerName (by decide))).1
      (mkEntry .debugLevel "zzz") [],
   (parseRules_token_order "*" "*" .alwaysTrue .alwaysTrue
      (by decide) (by decide) (by decide) (by decide) rfl rfl
      (fun e flds h => Option.noConfusion h)
      (fun e flds h => Option.noConfusion h)).2
      (mkEntry .debugLevel "zzz") []⟩

end Zapfilter
